import Mathlib

/-!
Shallow embedding of the name-grouping core of the repository
(`src/app/src/words/word_trie.py`, `src/app/src/words/tools.py`) and of the
move-name result mutation (`src/app/src/api/views.py`, `move_name`).

Python dictionaries are insertion-ordered, so they are embedded as
association lists (`List (String × _)`): lookup returns the value of the
first matching key, assignment of an existing key updates it in place, and
assignment of a fresh key appends it at the end.  The `defaultdict(list)`
used by `group_names` is embedded by `dictExtend`, which creates a missing
key with `[]` before extending, exactly like a `defaultdict` access.

The recursive grouping traversal `WordTrie.group_names` mutates three
accumulators in place (`grouped_names`, `current_branch`,
`current_branches`); it is embedded by explicit state passing: `groupAux`
takes the accumulators and returns the updated `grouped_names` and
`current_branches`.  The traversal recursion is bounded by a fuel argument
(any fuel at least `nodeDepth` of the node is enough, which is proved below);
`none` would mean fuel exhaustion and is proved unreachable.
-/

/-- Association-list lookup: the value of the first entry whose key is `k`,
mirroring Python `d[k]` (`none` mirrors `KeyError`). -/
def assocLookup {α : Type} : List (String × α) → String → Option α
  | [], _ => none
  | (k2, v) :: rest, k => if k2 = k then some v else assocLookup rest k

/-- Association-list assignment `d[k] = v`: update the first entry with key
`k` in place, or append a fresh entry at the end, like a Python dict. -/
def assocSet {α : Type} : List (String × α) → String → α → List (String × α)
  | [], k, v => [(k, v)]
  | (k2, v2) :: rest, k, v =>
    if k2 = k then (k2, v) :: rest else (k2, v2) :: assocSet rest k v

/-- Association-list deletion `del d[k]`: remove the first entry with key
`k` (a Python dict has at most one). -/
def assocDelete {α : Type} : List (String × α) → String → List (String × α)
  | [], _ => []
  | (k2, v) :: rest, k => if k2 = k then rest else (k2, v) :: assocDelete rest k

/-- Keys of an association list, in order. -/
def keysOf {α : Type} (m : List (String × α)) : List String :=
  m.map Prod.fst

/-- Embedding of `defaultdict(list)` access plus `extend`:
`grouped_names[k].extend(vs)` creates the key with `[]` at the end when it
is missing, then appends `vs` to its list. -/
def dictExtend : List (String × List String) → String → List String →
    List (String × List String)
  | [], k, vs => [(k, vs)]
  | (k2, v2) :: rest, k, vs =>
    if k2 = k then (k2, v2 ++ vs) :: rest else (k2, v2) :: dictExtend rest k vs

/-- Split a character list on every non-overlapping occurrence of the
separator, scanning left to right, like Python `str.split(sep)`.  The fuel
is consumed one unit per examined position; fuel equal to the length of the
list is always enough because every step drops at least one character. -/
def splitCharsFuel (sep : List Char) : Nat → List Char → List (List Char)
  | _, [] => [[]]
  | 0, l => [l]
  | Nat.succ fuel, c :: rest =>
    if sep.isPrefixOf (c :: rest) then
      [] :: splitCharsFuel sep fuel ((c :: rest).drop sep.length)
    else
      match splitCharsFuel sep fuel rest with
      | [] => [[c]]
      | piece :: pieces => (c :: piece) :: pieces

/-- Embedding of Python `s.split(sep)` for a nonempty separator (the
repository always splits on the configured word delimiter).  For the empty
separator, where Python raises `ValueError`, the embedding returns `[s]`
(the convention of Lean's `String.splitOn`); no claim exercises that case. -/
def pySplit (s sep : String) : List String :=
  if sep.data.isEmpty then [s]
  else (splitCharsFuel sep.data s.data.length s.data).map String.mk

/-- Embedding of Python `sep.join(parts)`: concatenate the parts with the
separator between consecutive parts. -/
def pyJoin (sep : String) : List String → String
  | [] => ""
  | [s] => s
  | s :: rest => s ++ sep ++ pyJoin sep rest

/-- Embedding of `WordTrieNode` (`word_trie.py`, lines 9-47): a node stores
its word, the joined text from the root, the full-name flag, and the
insertion-ordered children dictionary. -/
inductive WordTrieNode : Type where
  | mk (word : String) (text : String) (is_full_name : Bool)
      (children : List (String × WordTrieNode)) : WordTrieNode

/-- Projection for the `word` attribute. -/
def WordTrieNode.word : WordTrieNode → String
  | .mk w _ _ _ => w

/-- Projection for the `text` attribute. -/
def WordTrieNode.text : WordTrieNode → String
  | .mk _ t _ _ => t

/-- Projection for the `is_full_name` attribute. -/
def WordTrieNode.is_full_name : WordTrieNode → Bool
  | .mk _ _ b _ => b

/-- Projection for the `children` attribute. -/
def WordTrieNode.children : WordTrieNode → List (String × WordTrieNode)
  | .mk _ _ _ cs => cs

/-- Derived property `is_root`: the stored word is the empty string. -/
def WordTrieNode.is_root (n : WordTrieNode) : Bool :=
  n.word = ""

/-- Derived property `is_branching_point`: more than one child. -/
def WordTrieNode.is_branching_point (n : WordTrieNode) : Bool :=
  n.children.length > 1

/-- Derived property `is_leaf`: no children. -/
def WordTrieNode.is_leaf (n : WordTrieNode) : Bool :=
  n.children.isEmpty

mutual

/-- Height of a trie node (number of nodes on the longest downward path,
the node itself included); used as recursion fuel for the grouping
traversal, which descends one level per recursive step. -/
def nodeDepth : WordTrieNode → Nat
  | .mk _ _ _ cs => 1 + childrenDepth cs

/-- Greatest height among the nodes of a children list. -/
def childrenDepth : List (String × WordTrieNode) → Nat
  | [] => 0
  | (_, c) :: rest => max (nodeDepth c) (childrenDepth rest)

end

/-- Embedding of the `WordTrie` object: the root node plus the configured
word delimiter. -/
structure WordTrie : Type where
  word_delimiter : String
  root : WordTrieNode

/-- Default word delimiter (`WordTrie.DEFAULT_WORD_DELIMITER`). -/
def WordTrie.DEFAULT_WORD_DELIMITER : String := "_"

/-- Recursive worker for `insert_name`: `p` is the list of words already
consumed on the path (so a freshly created node for the next word `wd` gets
`text = delimiter.join` of `p ++ [wd]`, matching `words[:i]` in the
source), `rest` is the remaining words.  The final node is marked
`is_full_name`. -/
def insertWords (delim : String) (p : List String) :
    List String → WordTrieNode → WordTrieNode
  | [], .mk w t _ cs => .mk w t true cs
  | wd :: ws, .mk w t b cs =>
    let p2 := p ++ [wd]
    let child :=
      match assocLookup cs wd with
      | some c => c
      | none => WordTrieNode.mk wd (pyJoin delim p2) false []
    .mk w t b (assocSet cs wd (insertWords delim p2 ws child))

/-- Embedding of `WordTrie.insert_name` (lines 94-115): split the name on
the delimiter and walk/create one node per word. -/
def WordTrie.insert_name (t : WordTrie) (name : String) : WordTrie :=
  WordTrie.mk t.word_delimiter
    (insertWords t.word_delimiter [] (pySplit name t.word_delimiter) t.root)

/-- Embedding of `WordTrie.from_names` (lines 76-92): start from a fresh
root and insert each name in input order. -/
def WordTrie.from_names (names : List String) (word_delimiter : String) :
    WordTrie :=
  names.foldl WordTrie.insert_name
    (WordTrie.mk word_delimiter (WordTrieNode.mk "" "" false []))

/-- Embedding of Python `list.remove(x)` on the live `sub_branches` list:
drop the first element equal to `x`. -/
def pyRemove (x : List String) : List (List String) → List (List String)
  | [] => []
  | y :: ys => if y = x then ys else y :: pyRemove x ys

/-- Loop body of the absorption loop (lines 159-166): if the visited branch
has more than one full name, its first full name names a group that
receives the whole branch, and the branch is removed from the live list. -/
def absorbStep (grouped : List (String × List String))
    (subs : List (List String)) (branch : List String) :
    List (String × List String) × List (List String) :=
  if branch.length > 1 then
    (dictExtend grouped (branch.headD "") branch, pyRemove branch subs)
  else (grouped, subs)

/-- Embedding of the absorption loop `for branch in reversed(sub_branches)`
(lines 157-166): visit the live list at index `i`, then `i - 1`, ..., and
stop when the index leaves the list (as the reversed iterator does).
Returns the updated `grouped_names` and the remaining sub-branches. -/
def absorbFrom (grouped : List (String × List String))
    (subs : List (List String)) (i : Nat) :
    List (String × List String) × List (List String) :=
  if i < subs.length then
    match i, absorbStep grouped subs (subs.getD i []) with
    | 0, st => st
    | Nat.succ j, st => absorbFrom st.1 st.2 j
  else (grouped, subs)

/-- Fold the recursive call over the children of a branching point
(lines 143-152): each child starts with a fresh `current_branch` and the
shared `sub_branches`; `f` is the recursive call at one fuel level down. -/
def groupChildren
    (f : WordTrieNode → List (String × List String) → List (List String) →
      Option (List (String × List String) × List (List String))) :
    List (String × WordTrieNode) → List (String × List String) →
      List (List String) → Option (List (String × List String) × List (List String))
  | [], g, subs => some (g, subs)
  | kc :: rest, g, subs =>
    match f kc.2 g subs with
    | none => none
    | some st => groupChildren f rest st.1 st.2

/-- Start of the absorption loop: `reversed(sub_branches)` begins at index
`length - 1`; an empty list is left untouched. -/
def absorbAll (st : List (String × List String) × List (List String)) :
    List (String × List String) × List (List String) :=
  match st.2.length with
  | 0 => st
  | Nat.succ j => absorbFrom st.1 st.2 j

/-- Resolution of a branching point after absorption (lines 170-198),
given the updated `grouped_names` and the remaining sub-branches (each now
holding at most one full name): at the root, every remaining full name
becomes its own singleton group; at a branching point that is a full name
or keeps more than one sub-branch, the node's `text` names a group holding
the node's text (when it is a full name) and all remaining full names;
otherwise the remaining sub-branches are deferred to the caller's
`current_branches`. -/
def branchResolve (node : WordTrieNode) (branches : List (List String))
    (st : List (String × List String) × List (List String)) :
    List (String × List String) × List (List String) :=
  if node.is_root then
    (st.2.flatten.foldl (fun g fn => dictExtend g fn [fn]) st.1, branches)
  else if node.is_full_name || st.2.length > 1 then
    (dictExtend
      (if node.is_full_name then dictExtend st.1 node.text [node.text] else st.1)
      node.text st.2.flatten, branches)
  else
    (st.1, branches ++ st.2)

/-- Embedding of the inner `_group_names` recursion (lines 132-215).  The
state threaded through is the `grouped_names` dictionary and the
`current_branches` accumulator of the caller; `current_branch` holds the
full names collected along the current non-branching chain.  Fuel bounds
the recursion depth; `nodeDepth` of the node always suffices. -/
def groupAux : Nat → WordTrieNode → List String →
    List (String × List String) → List (List String) →
    Option (List (String × List String) × List (List String))
  | 0, _, _, _, _ => none
  | Nat.succ fuel, node, current_branch, grouped, branches =>
    if node.is_branching_point then
      match groupChildren (fun n g s => groupAux fuel n [] g s)
          node.children grouped [] with
      | none => none
      | some st => some (branchResolve node branches (absorbAll st))
    else
      match node.children with
      | [] =>
        some (grouped, branches ++
          [if node.is_full_name then current_branch ++ [node.text]
            else current_branch])
      | kc :: _ =>
        groupAux fuel kc.2
          (if node.is_full_name then current_branch ++ [node.text]
            else current_branch)
          grouped branches

/-- Embedding of `WordTrie.group_names` (lines 117-221): run the traversal
from the root with empty accumulators and return the grouped-names
dictionary. -/
def WordTrie.group_names (t : WordTrie) :
    Option (List (String × List String)) :=
  match groupAux (nodeDepth t.root) t.root [] [] [] with
  | none => none
  | some st => some st.1

/-- Embedding of `tools.group_names` (tools.py, lines 9-25): build the trie
from the names and group them. -/
def group_names (names : List String) (word_delimiter : String) :
    Option (List (String × List String)) :=
  (WordTrie.from_names names word_delimiter).group_names

/-- Validation failures of the move-name operation (`views.py`,
lines 85-98): the source group is absent from the stored result, or the
name is absent from the source group's member list.  Both are answered
with an HTTP 400 validation error. -/
inductive MoveError : Type where
  | source_group_not_found : MoveError
  | name_not_found : MoveError

/-- Embedding of Python `members.remove(name)`: remove the first occurrence
of `name`; `none` mirrors the `ValueError` raised when it is absent (the
list is left unchanged in that case). -/
def listRemoveFirst : List String → String → Option (List String)
  | [], _ => none
  | y :: ys, x =>
    if y = x then some ys
    else
      match listRemoveFirst ys x with
      | none => none
      | some rest => some (y :: rest)

/-- Delete the source group when its member list became empty
(`views.py`, lines 100-102). -/
def moveDropSourceIfEmpty (result : List (String × List String))
    (source_group : String) (members2 : List String) :
    List (String × List String) :=
  if members2.isEmpty then assocDelete result source_group else result

/-- Create the target group with an empty member list when it is absent
(`views.py`, lines 105-106). -/
def moveEnsureTarget (result : List (String × List String))
    (target_group : String) : List (String × List String) :=
  match assocLookup result target_group with
  | none => result ++ [(target_group, [])]
  | some _ => result

/-- Embedding of `GroupingTaskViewSet.move_name` (`views.py`,
lines 71-115), acting on the stored result mapping: look up the source
group, remove the name from its member list, delete the source group when
its list becomes empty, create the target group with an empty list when it
is absent, and append the name to the target group's list.  An error
carries the state of the mapping at the moment the exception is raised:
both exceptions are raised before any write to the mapping, so the carried
state is the untouched input. -/
def move_name (result : List (String × List String))
    (name source_group target_group : String) :
    Except (MoveError × List (String × List String))
      (List (String × List String)) :=
  match assocLookup result source_group with
  | none => Except.error (MoveError.source_group_not_found, result)
  | some members =>
    match listRemoveFirst members name with
    | none => Except.error (MoveError.name_not_found, result)
    | some members2 =>
      Except.ok
        (dictExtend
          (moveEnsureTarget
            (moveDropSourceIfEmpty (assocSet result source_group members2)
              source_group members2)
            target_group)
          target_group [name])


/-- Membership test of the trie: the name's word sequence labels a path
from the given node whose final node is marked `is_full_name`.  This is a
specification predicate used to state and prove properties of
`insert_name`; it is not part of the source. -/
def containsWords : List String → WordTrieNode → Bool
  | [], node => node.is_full_name
  | w :: ws, node =>
    match assocLookup node.children w with
    | some c => containsWords ws c
    | none => false

/-- Membership of a full name in the trie. -/
def WordTrie.containsName (t : WordTrie) (name : String) : Bool :=
  containsWords (pySplit name t.word_delimiter) t.root

/-- Remove every later duplicate occurrence from a list, keeping the first
occurrence of each element; `seen` holds the elements already kept. -/
def dedupKeepFirst (seen : List String) : List String → List String
  | [] => []
  | n :: ns =>
    if n ∈ seen then dedupKeepFirst seen ns
    else n :: dedupKeepFirst (n :: seen) ns

/-- Text invariant of a subtree hanging below the path `pref` (the words
from the root down to the node's parent): the node's `text` is the
delimiter-joined word path from the root to the node, every child is
stored under its own word, and every child subtree satisfies the same
invariant one level deeper. -/
inductive TextInvAt (delim : String) : List String → WordTrieNode → Prop where
  | mk : ∀ (pref : List String) (w t : String) (b : Bool)
      (cs : List (String × WordTrieNode)),
      t = pyJoin delim (pref ++ [w]) →
      (∀ kc ∈ cs, kc.1 = WordTrieNode.word kc.2) →
      (∀ kc ∈ cs, TextInvAt delim (pref ++ [w]) kc.2) →
      TextInvAt delim pref (WordTrieNode.mk w t b cs)

/-- Text invariant of a whole tree: the root stores the empty word and the
empty text, and every subtree below the root satisfies `TextInvAt` for its
path. -/
def TreeTextInv (delim : String) (root : WordTrieNode) : Prop :=
  root.word = "" ∧ root.text = "" ∧
    (∀ kc ∈ root.children, kc.1 = WordTrieNode.word kc.2) ∧
    ∀ kc ∈ root.children, TextInvAt delim [] kc.2

/-- Input list of the end-to-end reference scenario (the repository's own
example data in `words/tests.py`). -/
def exampleNames : List String :=
  ["adhoc_charge_amt", "adhoc_charge_amt_usd", "alcohol_direct_payment_ind",
   "alcohol_tax_amt", "alcohol_tax_amt_usd", "alcohol_gmv_amt",
   "alcohol_gmv_amt_usd", "alcohol_product_ind", "bag_fee", "bag_fee_usd",
   "bags_fee_tax_amt", "bags_fee_tax_amt_usd", "bags_in_freezer",
   "bags_in_fridge", "bags_in_shelves", "country_id", "currency"]

/-- The trie that `from_names` builds from `exampleNames` with the default
delimiter, written out literally (proved equal below). -/
def exampleTree : WordTrieNode :=
  .mk "" "" false
    [("adhoc", .mk "adhoc" "adhoc" false
        [("charge", .mk "charge" "adhoc_charge" false
            [("amt", .mk "amt" "adhoc_charge_amt" true
                [("usd", .mk "usd" "adhoc_charge_amt_usd" true [])])])]),
     ("alcohol", .mk "alcohol" "alcohol" false
        [("direct", .mk "direct" "alcohol_direct" false
            [("payment", .mk "payment" "alcohol_direct_payment" false
                [("ind", .mk "ind" "alcohol_direct_payment_ind" true [])])]),
         ("tax", .mk "tax" "alcohol_tax" false
            [("amt", .mk "amt" "alcohol_tax_amt" true
                [("usd", .mk "usd" "alcohol_tax_amt_usd" true [])])]),
         ("gmv", .mk "gmv" "alcohol_gmv" false
            [("amt", .mk "amt" "alcohol_gmv_amt" true
                [("usd", .mk "usd" "alcohol_gmv_amt_usd" true [])])]),
         ("product", .mk "product" "alcohol_product" false
            [("ind", .mk "ind" "alcohol_product_ind" true [])])]),
     ("bag", .mk "bag" "bag" false
        [("fee", .mk "fee" "bag_fee" true
            [("usd", .mk "usd" "bag_fee_usd" true [])])]),
     ("bags", .mk "bags" "bags" false
        [("fee", .mk "fee" "bags_fee" false
            [("tax", .mk "tax" "bags_fee_tax" false
                [("amt", .mk "amt" "bags_fee_tax_amt" true
                    [("usd", .mk "usd" "bags_fee_tax_amt_usd" true [])])])]),
         ("in", .mk "in" "bags_in" false
            [("freezer", .mk "freezer" "bags_in_freezer" true []),
             ("fridge", .mk "fridge" "bags_in_fridge" true []),
             ("shelves", .mk "shelves" "bags_in_shelves" true [])])]),
     ("country", .mk "country" "country" false
        [("id", .mk "id" "country_id" true [])]),
     ("currency", .mk "currency" "currency" true [])]

/-- Expected output of the end-to-end reference scenario, in the order the
traversal resolves the groups (as a mapping it is exactly the nine groups
of the specification). -/
def exampleGroups : List (String × List String) :=
  [("alcohol_gmv_amt", ["alcohol_gmv_amt", "alcohol_gmv_amt_usd"]),
   ("alcohol_tax_amt", ["alcohol_tax_amt", "alcohol_tax_amt_usd"]),
   ("alcohol", ["alcohol_direct_payment_ind", "alcohol_product_ind"]),
   ("bags_in", ["bags_in_freezer", "bags_in_fridge", "bags_in_shelves"]),
   ("bags_fee_tax_amt", ["bags_fee_tax_amt", "bags_fee_tax_amt_usd"]),
   ("bag_fee", ["bag_fee", "bag_fee_usd"]),
   ("adhoc_charge_amt", ["adhoc_charge_amt", "adhoc_charge_amt_usd"]),
   ("country_id", ["country_id"]),
   ("currency", ["currency"])]

theorem assocLookup_assocSet_self {α : Type} (m : List (String × α))
    (k : String) (v : α) : assocLookup (assocSet m k v) k = some v := by
  induction m with
  | nil => simp [assocSet, assocLookup]
  | cons kv rest ih =>
    obtain ⟨k2, v2⟩ := kv
    by_cases h : k2 = k
    · simp [assocSet, assocLookup, h]
    · simp [assocSet, assocLookup, h, ih]

theorem assocLookup_assocSet_ne {α : Type} (m : List (String × α))
    (k k2 : String) (v : α) (h : k2 ≠ k) :
    assocLookup (assocSet m k v) k2 = assocLookup m k2 := by
  have hne : ¬ (k = k2) := fun h2 => h h2.symm
  induction m with
  | nil => simp [assocSet, assocLookup, hne]
  | cons kv rest ih =>
    obtain ⟨k3, v3⟩ := kv
    by_cases h3 : k3 = k
    · subst h3
      simp [assocSet, assocLookup, hne]
    · simp [assocSet, assocLookup, h3, ih]

theorem assocSet_self_of_lookup {α : Type} (m : List (String × α))
    (k : String) (v : α) (h : assocLookup m k = some v) :
    assocSet m k v = m := by
  induction m with
  | nil => simp [assocLookup] at h
  | cons kv rest ih =>
    obtain ⟨k2, v2⟩ := kv
    by_cases h2 : k2 = k
    · simp [assocLookup, h2] at h
      simp [assocSet, h2, h]
    · simp [assocLookup, h2] at h
      simp [assocSet, h2, ih h]

theorem assocLookup_assocDelete_ne {α : Type} (m : List (String × α))
    (k k2 : String) (h : k2 ≠ k) :
    assocLookup (assocDelete m k) k2 = assocLookup m k2 := by
  have hne : ¬ (k = k2) := fun h2 => h h2.symm
  induction m with
  | nil => simp [assocDelete]
  | cons kv rest ih =>
    obtain ⟨k3, v3⟩ := kv
    by_cases h3 : k3 = k
    · subst h3
      simp [assocDelete, assocLookup, hne]
    · simp [assocDelete, assocLookup, h3, ih]

theorem assocLookup_eq_none_of_not_mem {α : Type} (m : List (String × α))
    (k : String) (h : k ∉ keysOf m) : assocLookup m k = none := by
  induction m with
  | nil => simp [assocLookup]
  | cons kv rest ih =>
    obtain ⟨k2, v2⟩ := kv
    simp only [keysOf, List.map_cons, List.mem_cons, not_or] at h
    have h1 : ¬ (k2 = k) := fun h2 => h.1 h2.symm
    simp only [assocLookup, if_neg h1]
    exact ih h.2

theorem assocLookup_assocDelete_self {α : Type} (m : List (String × α))
    (k : String) (h : (keysOf m).Nodup) :
    assocLookup (assocDelete m k) k = none := by
  induction m with
  | nil => simp [assocDelete, assocLookup]
  | cons kv rest ih =>
    obtain ⟨k2, v2⟩ := kv
    simp only [keysOf, List.map_cons, List.nodup_cons] at h
    by_cases h2 : k2 = k
    · subst h2
      simp only [assocDelete, if_pos rfl]
      exact assocLookup_eq_none_of_not_mem rest k2 h.1
    · simp only [assocDelete, if_neg h2, assocLookup, if_neg h2]
      exact ih h.2

theorem assocLookup_append_some {α : Type} (m : List (String × α))
    (k : String) (v : α) (h : assocLookup m k = none) :
    assocLookup (m ++ [(k, v)]) k = some v := by
  induction m with
  | nil => simp [assocLookup]
  | cons kv rest ih =>
    obtain ⟨k2, v2⟩ := kv
    by_cases h2 : k2 = k
    · simp [assocLookup, h2] at h
    · simp [assocLookup, h2] at h ⊢
      exact ih h

theorem assocLookup_append_ne {α : Type} (m : List (String × α))
    (k k2 : String) (v : α) (h : k2 ≠ k) :
    assocLookup (m ++ [(k, v)]) k2 = assocLookup m k2 := by
  have hne : ¬ (k = k2) := fun h2 => h h2.symm
  induction m with
  | nil => simp [assocLookup, hne]
  | cons kv rest ih =>
    obtain ⟨k3, v3⟩ := kv
    by_cases h3 : k3 = k2
    · simp [assocLookup, h3]
    · simp [assocLookup, h3, ih]

theorem assocLookup_dictExtend_self (m : List (String × List String))
    (k : String) (vs : List String) :
    assocLookup (dictExtend m k vs) k =
      some ((assocLookup m k).getD [] ++ vs) := by
  induction m with
  | nil => simp [dictExtend, assocLookup]
  | cons kv rest ih =>
    obtain ⟨k2, v2⟩ := kv
    by_cases h2 : k2 = k
    · simp [dictExtend, assocLookup, h2]
    · simp [dictExtend, assocLookup, h2, ih]

theorem assocLookup_dictExtend_ne (m : List (String × List String))
    (k k2 : String) (vs : List String) (h : k2 ≠ k) :
    assocLookup (dictExtend m k vs) k2 = assocLookup m k2 := by
  have hne : ¬ (k = k2) := fun h2 => h h2.symm
  induction m with
  | nil => simp [dictExtend, assocLookup, hne]
  | cons kv rest ih =>
    obtain ⟨k3, v3⟩ := kv
    by_cases h3 : k3 = k
    · subst h3
      simp [dictExtend, assocLookup, hne]
    · simp [dictExtend, assocLookup, h3, ih]

theorem keysOf_assocSet_of_lookup {α : Type} (m : List (String × α))
    (k : String) (v v' : α) (h : assocLookup m k = some v) :
    keysOf (assocSet m k v') = keysOf m := by
  induction m with
  | nil => simp [assocLookup] at h
  | cons kv rest ih =>
    obtain ⟨k2, v2⟩ := kv
    by_cases h2 : k2 = k
    · simp [assocSet, h2, keysOf]
    · simp [assocLookup, h2] at h
      simp only [assocSet, if_neg h2, keysOf, List.map_cons] at ih ⊢
      rw [ih h]

theorem mem_of_mem_assocSet {α : Type} (m : List (String × α))
    (k : String) (v : α) (kc : String × α) :
    kc ∈ assocSet m k v → kc ∈ m ∨ kc = (k, v) := by
  induction m with
  | nil =>
    intro h
    simp [assocSet] at h
    exact Or.inr h
  | cons kv rest ih =>
    obtain ⟨k2, v2⟩ := kv
    intro h
    by_cases h2 : k2 = k
    · subst h2
      simp only [assocSet, if_true, eq_self_iff_true, List.mem_cons] at h
      rcases h with h | h
      · exact Or.inr h
      · exact Or.inl (List.mem_cons_of_mem _ h)
    · simp only [assocSet, if_neg h2, List.mem_cons] at h
      rcases h with h | h
      · exact Or.inl (h ▸ List.mem_cons_self _ _)
      · rcases ih h with h3 | h3
        · exact Or.inl (List.mem_cons_of_mem _ h3)
        · exact Or.inr h3

theorem mem_of_assocLookup {α : Type} (m : List (String × α))
    (k : String) (v : α) (h : assocLookup m k = some v) : (k, v) ∈ m := by
  induction m with
  | nil => simp [assocLookup] at h
  | cons kv rest ih =>
    obtain ⟨k2, v2⟩ := kv
    by_cases h2 : k2 = k
    · subst h2
      simp [assocLookup] at h
      simp [h]
    · simp [assocLookup, h2] at h
      simp [ih h]

theorem listRemoveFirst_eq_none_of_not_mem (l : List String) (x : String)
    (h : x ∉ l) : listRemoveFirst l x = none := by
  induction l with
  | nil => simp [listRemoveFirst]
  | cons y ys ih =>
    simp only [List.mem_cons, not_or] at h
    have h1 : ¬ (y = x) := fun h2 => h.1 h2.symm
    simp [listRemoveFirst, h1, ih h.2]

theorem listRemoveFirst_isSome_of_mem (l : List String) (x : String)
    (h : x ∈ l) : ∃ l2, listRemoveFirst l x = some l2 := by
  induction l with
  | nil => simp at h
  | cons y ys ih =>
    by_cases h2 : y = x
    · exact ⟨ys, by simp [listRemoveFirst, h2]⟩
    · have hx : x ∈ ys := by
        rcases List.mem_cons.mp h with h3 | h3
        · exact absurd h3.symm h2
        · exact h3
      rcases ih hx with ⟨l2, hl2⟩
      exact ⟨y :: l2, by simp [listRemoveFirst, h2, hl2]⟩

theorem insertWords_word (delim : String) (p ws : List String)
    (node : WordTrieNode) : (insertWords delim p ws node).word = node.word := by
  cases ws <;> cases node <;> simp [insertWords, WordTrieNode.word]

theorem containsWords_insertWords (delim : String) :
    ∀ (ws p : List String) (node : WordTrieNode),
    containsWords ws (insertWords delim p ws node) = true := by
  intro ws
  induction ws with
  | nil =>
    intro p node
    cases node
    simp [insertWords, containsWords, WordTrieNode.is_full_name]
  | cons wd ws ih =>
    intro p node
    cases node with
    | mk w t b cs =>
      simp only [insertWords, containsWords, WordTrieNode.children]
      rw [assocLookup_assocSet_self]
      exact ih _ _

theorem containsWords_insertWords_mono (delim : String) :
    ∀ (ws2 p ws : List String) (node : WordTrieNode),
    containsWords ws node = true →
    containsWords ws (insertWords delim p ws2 node) = true := by
  intro ws2
  induction ws2 with
  | nil =>
    intro p ws node h
    cases node with
    | mk w t b cs =>
      cases ws with
      | nil => simp [insertWords, containsWords, WordTrieNode.is_full_name]
      | cons w' ws' =>
        simpa [insertWords, containsWords, WordTrieNode.children] using h
  | cons wd rest ih =>
    intro p ws node h
    cases node with
    | mk w t b cs =>
      cases ws with
      | nil =>
        simpa [insertWords, containsWords, WordTrieNode.is_full_name] using h
      | cons w' ws' =>
        simp only [containsWords, WordTrieNode.children] at h
        simp only [insertWords, containsWords, WordTrieNode.children]
        rcases hl : assocLookup cs w' with _ | c
        · rw [hl] at h
          simp at h
        · rw [hl] at h
          by_cases hw : w' = wd
          · subst hw
            rw [assocLookup_assocSet_self]
            simp only [hl]
            exact ih _ _ _ h
          · rw [assocLookup_assocSet_ne _ _ _ _ hw, hl]
            exact h

theorem insertWords_eq_of_contains (delim : String) :
    ∀ (ws p : List String) (node : WordTrieNode),
    containsWords ws node = true → insertWords delim p ws node = node := by
  intro ws
  induction ws with
  | nil =>
    intro p node h
    cases node with
    | mk w t b cs =>
      simp only [containsWords, WordTrieNode.is_full_name] at h
      simp [insertWords, h]
  | cons wd rest ih =>
    intro p node h
    cases node with
    | mk w t b cs =>
      simp only [containsWords, WordTrieNode.children] at h
      rcases hl : assocLookup cs wd with _ | c
      · rw [hl] at h
        simp at h
      · rw [hl] at h
        simp only [insertWords, hl]
        rw [ih _ _ h, assocSet_self_of_lookup _ _ _ hl]

theorem containsName_insert_name (t : WordTrie) (name : String) :
    (t.insert_name name).containsName name = true := by
  cases t with
  | mk d root =>
    simp only [WordTrie.insert_name, WordTrie.containsName]
    exact containsWords_insertWords d _ _ _

theorem containsName_insert_name_mono (t : WordTrie) (n m : String)
    (h : t.containsName m = true) :
    (t.insert_name n).containsName m = true := by
  cases t with
  | mk d root =>
    simp only [WordTrie.insert_name, WordTrie.containsName] at h ⊢
    exact containsWords_insertWords_mono d _ _ _ _ h

theorem insert_name_of_contains (t : WordTrie) (name : String)
    (h : t.containsName name = true) : t.insert_name name = t := by
  cases t with
  | mk d root =>
    simp only [WordTrie.insert_name, WordTrie.containsName] at h ⊢
    rw [insertWords_eq_of_contains d _ _ _ h]

theorem insert_name_twice (t : WordTrie) (name : String) :
    (t.insert_name name).insert_name name = t.insert_name name :=
  insert_name_of_contains _ _ (containsName_insert_name t name)

theorem foldl_insert_dedup :
    ∀ (l seen : List String) (t : WordTrie),
    (∀ n ∈ seen, t.containsName n = true) →
    (dedupKeepFirst seen l).foldl WordTrie.insert_name t =
      l.foldl WordTrie.insert_name t := by
  intro l
  induction l with
  | nil => intro seen t _; simp [dedupKeepFirst]
  | cons n ns ih =>
    intro seen t hseen
    by_cases hn : n ∈ seen
    · rw [show dedupKeepFirst seen (n :: ns) = dedupKeepFirst seen ns from by
        simp [dedupKeepFirst, hn]]
      rw [ih seen t hseen, List.foldl_cons,
        insert_name_of_contains t n (hseen n hn)]
    · rw [show dedupKeepFirst seen (n :: ns) = n :: dedupKeepFirst (n :: seen) ns
        from by simp [dedupKeepFirst, hn]]
      rw [List.foldl_cons, List.foldl_cons]
      refine ih (n :: seen) (t.insert_name n) ?_
      intro m hm
      rcases List.mem_cons.mp hm with hm | hm
      · exact hm ▸ containsName_insert_name t n
      · exact containsName_insert_name_mono t n m (hseen m hm)

theorem from_names_dedup (names : List String) (delim : String) :
    WordTrie.from_names (dedupKeepFirst [] names) delim =
      WordTrie.from_names names delim := by
  unfold WordTrie.from_names
  exact foldl_insert_dedup names [] _ (by intro n hn; simp at hn)

theorem insertWords_textInv (delim : String) :
    ∀ (ws pref : List String) (w t : String) (b : Bool)
      (cs : List (String × WordTrieNode)),
    TextInvAt delim pref (.mk w t b cs) →
    TextInvAt delim pref (insertWords delim (pref ++ [w]) ws (.mk w t b cs)) := by
  intro ws
  induction ws with
  | nil =>
    intro pref w t b cs h
    cases h with
    | mk _ _ _ _ _ ht hkeys hrec =>
      exact TextInvAt.mk pref w t true cs ht hkeys hrec
  | cons wd rest ih =>
    intro pref w t b cs h
    cases h with
    | mk _ _ _ _ _ ht hkeys hrec =>
      rcases hl : assocLookup cs wd with _ | c
      · -- the word is new: a fresh node is created and the tail is
        -- inserted below it
        have hfresh : TextInvAt delim (pref ++ [w])
            (WordTrieNode.mk wd (pyJoin delim ((pref ++ [w]) ++ [wd])) false []) :=
          TextInvAt.mk _ _ _ _ _ rfl (by intro kc hkc; simp at hkc)
            (by intro kc hkc; simp at hkc)
        have hnew := ih (pref ++ [w]) wd _ false [] hfresh
        simp only [insertWords, hl]
        refine TextInvAt.mk pref w t b _ ht ?_ ?_
        · intro kc hkc
          rcases mem_of_mem_assocSet _ _ _ _ hkc with hm | hm
          · exact hkeys kc hm
          · subst hm
            rw [insertWords_word]
            rfl
        · intro kc hkc
          rcases mem_of_mem_assocSet _ _ _ _ hkc with hm | hm
          · exact hrec kc hm
          · subst hm
            exact hnew
      · -- the word already has a node: the tail is inserted below it
        have hmem := mem_of_assocLookup _ _ _ hl
        have hword : wd = c.word := hkeys (wd, c) hmem
        have hcinv : TextInvAt delim (pref ++ [w]) c := hrec (wd, c) hmem
        cases c with
        | mk wc tc bc csc =>
          have hwc : wd = wc := hword
          subst hwc
          have hnew := ih (pref ++ [w]) wd tc bc csc hcinv
          simp only [insertWords, hl]
          refine TextInvAt.mk pref w t b _ ht ?_ ?_
          · intro kc hkc
            rcases mem_of_mem_assocSet _ _ _ _ hkc with hm | hm
            · exact hkeys kc hm
            · subst hm
              rw [insertWords_word]
              rfl
          · intro kc hkc
            rcases mem_of_mem_assocSet _ _ _ _ hkc with hm | hm
            · exact hrec kc hm
            · subst hm
              exact hnew

theorem insertWords_rootInv (delim : String) :
    ∀ (ws : List String) (root : WordTrieNode),
    TreeTextInv delim root →
    TreeTextInv delim (insertWords delim [] ws root) := by
  intro ws root h
  obtain ⟨hw, ht, hkeys, hrec⟩ := h
  cases root with
  | mk w0 t0 b0 cs0 =>
    cases ws with
    | nil => exact ⟨hw, ht, hkeys, hrec⟩
    | cons wd rest =>
      rcases hl : assocLookup cs0 wd with _ | c
      · have hfresh : TextInvAt delim []
            (WordTrieNode.mk wd (pyJoin delim ([] ++ [wd])) false []) :=
          TextInvAt.mk _ _ _ _ _ rfl (by intro kc hkc; simp at hkc)
            (by intro kc hkc; simp at hkc)
        have hnew := insertWords_textInv delim rest [] wd _ false [] hfresh
        simp only [insertWords, hl]
        refine ⟨hw, ht, ?_, ?_⟩
        · intro kc hkc
          rcases mem_of_mem_assocSet _ _ _ _ hkc with hm | hm
          · exact hkeys kc hm
          · subst hm
            rw [insertWords_word]
            rfl
        · intro kc hkc
          rcases mem_of_mem_assocSet _ _ _ _ hkc with hm | hm
          · exact hrec kc hm
          · subst hm
            exact hnew
      · have hmem := mem_of_assocLookup _ _ _ hl
        have hword : wd = c.word := hkeys (wd, c) hmem
        have hcinv : TextInvAt delim [] c := hrec (wd, c) hmem
        cases c with
        | mk wc tc bc csc =>
          have hwc : wd = wc := hword
          subst hwc
          have hnew := insertWords_textInv delim rest [] wd tc bc csc hcinv
          simp only [insertWords, hl]
          refine ⟨hw, ht, ?_, ?_⟩
          · intro kc hkc
            rcases mem_of_mem_assocSet _ _ _ _ hkc with hm | hm
            · exact hkeys kc hm
            · subst hm
              rw [insertWords_word]
              rfl
          · intro kc hkc
            rcases mem_of_mem_assocSet _ _ _ _ hkc with hm | hm
            · exact hrec kc hm
            · subst hm
              exact hnew

theorem insert_name_textInv (t : WordTrie) (name : String)
    (h : TreeTextInv t.word_delimiter t.root) :
    TreeTextInv t.word_delimiter (t.insert_name name).root := by
  cases t with
  | mk d root =>
    exact insertWords_rootInv d _ root h

theorem from_names_textInv (names : List String) (delim : String) :
    TreeTextInv delim (WordTrie.from_names names delim).root := by
  unfold WordTrie.from_names
  have hbase : TreeTextInv delim (WordTrieNode.mk "" "" false []) :=
    ⟨rfl, rfl, by intro kc hkc; simp [WordTrieNode.children] at hkc,
      by intro kc hkc; simp [WordTrieNode.children] at hkc⟩
  have hgen : ∀ (l : List String) (t : WordTrie),
      TreeTextInv t.word_delimiter t.root →
      TreeTextInv t.word_delimiter (l.foldl WordTrie.insert_name t).root := by
    intro l
    induction l with
    | nil => intro t ht; exact ht
    | cons n ns ih =>
      intro t ht
      have h2 := insert_name_textInv t n ht
      have h3 := ih (t.insert_name n) h2
      simpa using h3
  exact hgen names (WordTrie.mk delim (WordTrieNode.mk "" "" false [])) hbase

theorem nodeDepth_le_childrenDepth :
    ∀ (cs : List (String × WordTrieNode)) (kc : String × WordTrieNode),
    kc ∈ cs → nodeDepth kc.2 ≤ childrenDepth cs := by
  intro cs
  induction cs with
  | nil => intro kc h; simp at h
  | cons kv rest ih =>
    intro kc h
    obtain ⟨k2, c2⟩ := kv
    rcases List.mem_cons.mp h with h | h
    · subst h
      simp only [childrenDepth]
      exact le_max_left _ _
    · calc nodeDepth kc.2 ≤ childrenDepth rest := ih kc h
        _ ≤ childrenDepth ((k2, c2) :: rest) := by
          simp only [childrenDepth]
          exact le_max_right _ _

theorem groupChildren_isSome
    (f : WordTrieNode → List (String × List String) → List (List String) →
      Option (List (String × List String) × List (List String))) :
    ∀ (cs : List (String × WordTrieNode)),
    (∀ kc ∈ cs, ∀ g s, (f kc.2 g s).isSome = true) →
    ∀ g s, (groupChildren f cs g s).isSome = true := by
  intro cs
  induction cs with
  | nil => intro _ g s; simp [groupChildren]
  | cons kc rest ih =>
    intro h g s
    rcases Option.isSome_iff_exists.mp (h kc (List.mem_cons_self _ _) g s)
      with ⟨out, hout⟩
    simp only [groupChildren, hout]
    exact ih (fun kc2 hm => h kc2 (List.mem_cons_of_mem _ hm)) out.1 out.2

theorem groupAux_isSome :
    ∀ (fuel : Nat) (node : WordTrieNode), nodeDepth node ≤ fuel →
    ∀ (cb : List String) (g : List (String × List String))
      (br : List (List String)),
    (groupAux fuel node cb g br).isSome = true := by
  intro fuel
  induction fuel with
  | zero =>
    intro node h
    cases node with
    | mk w t b cs =>
      simp only [nodeDepth] at h
      omega
  | succ fuel ih =>
    intro node h cb g br
    cases node with
    | mk w t b cs =>
      have hcd : childrenDepth cs ≤ fuel := by
        simp only [nodeDepth] at h
        omega
      by_cases hbp : (WordTrieNode.mk w t b cs).is_branching_point = true
      · have hchild : ∀ kc ∈ cs, ∀ g2 s2,
            (groupAux fuel kc.2 [] g2 s2).isSome = true := by
          intro kc hm g2 s2
          exact ih kc.2 (le_trans (nodeDepth_le_childrenDepth cs kc hm) hcd) [] g2 s2
        rcases Option.isSome_iff_exists.mp
            (groupChildren_isSome (fun n g2 s2 => groupAux fuel n [] g2 s2) cs
              hchild g []) with ⟨st, hst⟩
        simp [groupAux, hbp, WordTrieNode.children, hst]
      · cases hcs : cs with
        | nil => simp [groupAux, WordTrieNode.is_branching_point, WordTrieNode.children]
        | cons kc rest =>
          have hd : nodeDepth kc.2 ≤ fuel := by
            refine le_trans (nodeDepth_le_childrenDepth cs kc ?_) hcd
            rw [hcs]
            exact List.mem_cons_self _ _
          subst hcs
          have hstep : groupAux (Nat.succ fuel)
              (WordTrieNode.mk w t b (kc :: rest)) cb g br =
              groupAux fuel kc.2
                (if (WordTrieNode.mk w t b (kc :: rest)).is_full_name = true
                  then cb ++ [(WordTrieNode.mk w t b (kc :: rest)).text]
                  else cb) g br := by
            simp only [groupAux, WordTrieNode.children]
            rw [if_neg hbp]
          rw [hstep]
          exact ih kc.2 hd _ g br

theorem group_names_trie_isSome (t : WordTrie) :
    t.group_names.isSome = true := by
  rcases Option.isSome_iff_exists.mp
      (groupAux_isSome (nodeDepth t.root) t.root (le_refl _) [] [] [])
    with ⟨out, hout⟩
  simp [WordTrie.group_names, hout]

theorem group_names_isSome (names : List String) (delim : String) :
    (group_names names delim).isSome = true :=
  group_names_trie_isSome _

/-- C1.  The coverage claim fails on the code: for the input `["a"]` with
the default delimiter the root has a single child, the traversal never
enters the branching-point branch that is the only place where
`grouped_names` is written, and the collected top-level branches are
discarded, so `group_names` returns the empty mapping and the name `"a"`
appears in no group (total member count 0, input length 1).  This
contradicts the method's own docstring, which promises an individual group
for a name sharing no common prefix with any other name. -/
theorem group_names_coverage_failure : group_names ["a"] "_" = some [] := by
  decide

/-- C2.  The shallowest-anchor claim fails on the code at its own example:
for `["a_b", "a_b_c"]` with the default delimiter no node is a branching
point (the root has one child), so the traversal records nothing in
`grouped_names` and returns the empty mapping instead of the claimed
`[("a_b", ["a_b", "a_b_c"])]`. -/
theorem shallowest_anchor_failure :
    group_names ["a_b", "a_b_c"] "_" = some [] := by
  decide

set_option maxHeartbeats 2000000 in
/-- C3.  End-to-end reference scenario: grouping the repository's 17-name
example list with the default delimiter yields exactly the nine groups of
the specification.  The association list is written in the order the
traversal resolves the groups; as a key-to-value mapping it is exactly the
mapping stated by the claim. -/
theorem group_names_reference_scenario :
    group_names exampleNames "_" = some exampleGroups := by
  have h1 : WordTrie.from_names exampleNames "_" = WordTrie.mk "_" exampleTree := by
    simp [exampleNames, exampleTree, WordTrie.from_names, WordTrie.insert_name,
      insertWords, pySplit, splitCharsFuel, assocLookup, assocSet, pyJoin]
  show (WordTrie.from_names exampleNames "_").group_names = some exampleGroups
  rw [h1]
  simp [exampleTree, exampleGroups, WordTrie.group_names, nodeDepth, childrenDepth,
    groupAux, groupChildren, absorbAll, absorbFrom, absorbStep, branchResolve,
    pyRemove, dictExtend, assocLookup, WordTrieNode.is_branching_point,
    WordTrieNode.is_root, WordTrieNode.is_leaf, WordTrieNode.is_full_name,
    WordTrieNode.word, WordTrieNode.text, WordTrieNode.children]

/-- C4.  Idempotent re-grouping fails on the code: grouping `["x", "y"]`
produces the group `("x", ["x"])`, but re-grouping its member list
`["x"]` alone returns the empty mapping (the root-single-child slip of C1),
not the group itself. -/
theorem regrouping_idempotence_failure :
    group_names ["x", "y"] "_" = some [("x", ["x"]), ("y", ["y"])] ∧
    group_names ["x"] "_" = some [] := by
  constructor
  · decide
  · decide

/-- C5, counterexample.  Duplicate preservation fails on the code: the
input `["a", "b", "a"]` contains `"a"` twice, yet every group's member
list contains `"a"` at most once — the trie collapses duplicate
insertions, so the output has 2 members in total, not 3. -/
theorem duplicate_preservation_cex :
    group_names ["a", "b", "a"] "_" = some [("a", ["a"]), ("b", ["b"])] ∧
    ∀ p ∈ [("a", ["a"]), ("b", ["b"])], List.count "a" p.2 ≤ 1 := by
  constructor
  · decide
  · decide

/-- C5, amended.  Duplicates do not error, and they collapse instead of
propagating: grouping any list equals grouping the same list with every
later duplicate occurrence removed, so a duplicated name appears in the
output exactly as if it had occurred once. -/
theorem duplicate_collapse :
    ∀ (names : List String) (delim : String),
    (group_names names delim).isSome = true ∧
    group_names names delim = group_names (dedupKeepFirst [] names) delim := by
  intro names delim
  refine ⟨group_names_isSome names delim, ?_⟩
  unfold group_names
  rw [from_names_dedup]

/-- C6.  Empty input yields the empty mapping and no error, and the
grouping traversal is total: it returns a value on every trie, in
particular on every tree built by `from_names`. -/
theorem group_names_empty_and_total :
    group_names [] "_" = some [] ∧
    (∀ t : WordTrie, t.group_names.isSome = true) ∧
    ∀ (names : List String) (delim : String),
      (group_names names delim).isSome = true := by
  refine ⟨by decide, group_names_trie_isSome, group_names_isSome⟩

/-- C7.  Move-name semantics: the seeded scenario moves `"xyz"` out of its
singleton group into `"foo"`, deleting the emptied source group; and in
general, for a stored mapping (unique keys) with the name present in the
source group and a distinct target group, the operation succeeds, the
target group's list (created empty when absent) gains the name at its end,
and the source group either keeps its remaining members or is deleted
entirely when it became empty. -/
theorem move_name_spec :
    (move_name [("foo", ["foo", "foo-bar", "foo-baz"]), ("xyz", ["xyz"])]
        "xyz" "xyz" "foo" =
      Except.ok [("foo", ["foo", "foo-bar", "foo-baz", "xyz"])]) ∧
    ∀ (result : List (String × List String)) (n s t : String)
      (ms ms2 : List String),
      (keysOf result).Nodup → s ≠ t →
      assocLookup result s = some ms →
      listRemoveFirst ms n = some ms2 →
      ∃ out, move_name result n s t = Except.ok out ∧
        assocLookup out t = some ((assocLookup result t).getD [] ++ [n]) ∧
        assocLookup out s = (if ms2.isEmpty then none else some ms2) := by
  constructor
  · rfl
  · intro result n s t ms ms2 hnd hst hl hr
    have hts : t ≠ s := fun h => hst h.symm
    refine ⟨dictExtend
        (moveEnsureTarget (moveDropSourceIfEmpty (assocSet result s ms2) s ms2) t)
        t [n], by simp only [move_name, hl, hr], ?_, ?_⟩
    · -- the target group's list gains the name at its end
      rw [assocLookup_dictExtend_self]
      have h2 : assocLookup
          (moveDropSourceIfEmpty (assocSet result s ms2) s ms2) t =
          assocLookup result t := by
        unfold moveDropSourceIfEmpty
        by_cases he : ms2.isEmpty
        · rw [if_pos he, assocLookup_assocDelete_ne _ _ _ hts,
            assocLookup_assocSet_ne _ _ _ _ hts]
        · rw [if_neg he, assocLookup_assocSet_ne _ _ _ _ hts]
      have h3 : (assocLookup
          (moveEnsureTarget
            (moveDropSourceIfEmpty (assocSet result s ms2) s ms2) t) t).getD [] =
          (assocLookup result t).getD [] := by
        unfold moveEnsureTarget
        rcases h4 : assocLookup
            (moveDropSourceIfEmpty (assocSet result s ms2) s ms2) t with _ | v
        · rw [assocLookup_append_some _ _ _ h4]
          rw [h2] at h4
          rw [h4]
          rfl
        · rw [h4]
          rw [h2] at h4
          rw [h4]
      rw [h3]
    · -- the source group keeps its remaining members or is deleted
      rw [assocLookup_dictExtend_ne _ _ _ _ hst]
      have h2 : assocLookup
          (moveEnsureTarget
            (moveDropSourceIfEmpty (assocSet result s ms2) s ms2) t) s =
          assocLookup (moveDropSourceIfEmpty (assocSet result s ms2) s ms2) s := by
        unfold moveEnsureTarget
        rcases h4 : assocLookup
            (moveDropSourceIfEmpty (assocSet result s ms2) s ms2) t with _ | v
        · exact assocLookup_append_ne _ _ _ _ hst
        · rfl
      rw [h2]
      unfold moveDropSourceIfEmpty
      by_cases he : ms2.isEmpty
      · rw [if_pos he, he]
        refine assocLookup_assocDelete_self _ _ ?_
        rw [keysOf_assocSet_of_lookup _ _ _ _ hl]
        exact hnd
      · rw [if_neg he, assocLookup_assocSet_self]
        simp [he]

/-- C7, witness: the general clause applied to the seeded scenario. -/
theorem move_name_spec_witness :
    ∃ out, move_name [("foo", ["foo", "foo-bar", "foo-baz"]), ("xyz", ["xyz"])]
        "xyz" "xyz" "foo" = Except.ok out ∧
      assocLookup out "foo" =
        some ((assocLookup
          [("foo", ["foo", "foo-bar", "foo-baz"]), ("xyz", ["xyz"])] "foo").getD []
            ++ ["xyz"]) ∧
      assocLookup out "xyz" =
        (if ([] : List String).isEmpty then none else some []) :=
  move_name_spec.2 [("foo", ["foo", "foo-bar", "foo-baz"]), ("xyz", ["xyz"])]
    "xyz" "xyz" "foo" ["xyz"] [] (by decide) (by decide) (by decide) (by decide)

/-- C8.  Node-text invariant: every tree built by `from_names` satisfies
`TreeTextInv` (the root stores the empty word and the empty text, and
every other node's `text` is the delimiter-joined word path from the root
to that node), and every `insert_name` call preserves that invariant. -/
theorem node_text_invariant :
    (∀ (names : List String) (delim : String),
      TreeTextInv delim (WordTrie.from_names names delim).root) ∧
    ∀ (t : WordTrie) (name : String),
      TreeTextInv t.word_delimiter t.root →
      TreeTextInv t.word_delimiter (t.insert_name name).root := by
  exact ⟨from_names_textInv, insert_name_textInv⟩

/-- C8, witness: inserting `"a_b"` into a fresh trie preserves the
invariant of the fresh root. -/
theorem node_text_invariant_witness :
    TreeTextInv "_"
      ((WordTrie.mk "_" (WordTrieNode.mk "" "" false [])).insert_name "a_b").root :=
  node_text_invariant.2 (WordTrie.mk "_" (WordTrieNode.mk "" "" false [])) "a_b"
    ⟨rfl, rfl, by intro kc hkc; simp [WordTrieNode.children] at hkc,
      by intro kc hkc; simp [WordTrieNode.children] at hkc⟩

/-- C9.  Inserting the same name a second time leaves the trie exactly
equal to the trie after the first insertion, for every trie state; as a
consequence, the trie built from a name list equals the trie built from
the list with every later duplicate occurrence removed. -/
theorem insert_name_idempotent :
    (∀ (t : WordTrie) (name : String),
      (t.insert_name name).insert_name name = t.insert_name name) ∧
    ∀ (names : List String) (delim : String),
      WordTrie.from_names names delim =
        WordTrie.from_names (dedupKeepFirst [] names) delim := by
  exact ⟨insert_name_twice, fun names delim => (from_names_dedup names delim).symm⟩

/-- C10.  The move operation is atomic on error: every error outcome
carries the stored mapping unchanged, an absent source group is rejected
as `source_group_not_found` with the mapping untouched, and a name missing
from the source group's list is rejected as `name_not_found` with the
mapping untouched — in the source both exceptions are raised before any
write, and the task is only saved on the success path. -/
theorem move_name_atomic_on_error :
    (∀ (result : List (String × List String)) (n s t : String)
        (e : MoveError) (r2 : List (String × List String)),
      move_name result n s t = Except.error (e, r2) → r2 = result) ∧
    (∀ (result : List (String × List String)) (n s t : String),
      assocLookup result s = none →
      move_name result n s t =
        Except.error (MoveError.source_group_not_found, result)) ∧
    ∀ (result : List (String × List String)) (n s t : String)
      (ms : List String),
      assocLookup result s = some ms → n ∉ ms →
      move_name result n s t =
        Except.error (MoveError.name_not_found, result) := by
  refine ⟨?_, ?_, ?_⟩
  · intro result n s t e r2 h
    rcases hl : assocLookup result s with _ | ms
    · simp only [move_name, hl, Except.error.injEq, Prod.mk.injEq] at h
      exact h.2.symm
    · rcases hr : listRemoveFirst ms n with _ | ms2
      · simp only [move_name, hl, hr, Except.error.injEq, Prod.mk.injEq] at h
        exact h.2.symm
      · simp only [move_name, hl, hr] at h
        exact Except.noConfusion h
  · intro result n s t hl
    simp only [move_name, hl]
  · intro result n s t ms hl hn
    simp only [move_name, hl, listRemoveFirst_eq_none_of_not_mem ms n hn]

/-- C10, witness: both rejection clauses and the atomicity clause applied
to concrete mappings. -/
theorem move_name_atomic_on_error_witness :
    (move_name [] "a" "g" "h" =
      Except.error (MoveError.source_group_not_found,
        ([] : List (String × List String)))) ∧
    (move_name [("g", ["a"])] "b" "g" "h" =
      Except.error (MoveError.name_not_found, [("g", ["a"])])) ∧
    ([] : List (String × List String)) = [] :=
  ⟨move_name_atomic_on_error.2.1 [] "a" "g" "h" rfl,
   move_name_atomic_on_error.2.2 [("g", ["a"])] "b" "g" "h" ["a"] rfl (by decide),
   move_name_atomic_on_error.1 [] "a" "g" "h" MoveError.source_group_not_found []
     (move_name_atomic_on_error.2.1 [] "a" "g" "h" rfl)⟩
